import Mathlib

/-!
Verification development for the vocdoni halo2-franchise-proof core.

The embedding covers `src/utils.rs` (the `MerkleTree` model, the witness
builder `generate_circuit_inputs`, and the test-vector builder
`generate_test_data`) and the value-level semantics of the circuit in
`src/franchise.rs` (`FranchiseCircuit::merkle_tree` and the public-input
layout of `synthesize`).

Conventions of the embedding:
- `Fp` (the Pasta base field) is an abstract type `F` with decidable
  equality.  The Poseidon compression primitive (`crate::primitives`,
  not present under `src/`) is, exactly as the spec treats it, an opaque
  parameter `hash : F → F → F`; `Fp::zero()` is the parameter `z : F`.
- Rust `Vec<Fp>` becomes `List F`; a panicking operation (failed
  `assert!`, out-of-bounds array write) becomes an `Option` returning
  `none`.  In-bounds reads that the source performs with panicking
  indexing are written with `List.getD _ z`; the bounds themselves are
  proved separately (see the witness-offset theorems).
- `usize` / `u32` become `Nat`.  `index & 1` is `index % 2`,
  `index >> 1` is `index / 2`; the 16-bit mask `index & 0xfffe` from
  `MerkleTree::witness` is kept literally as `index &&& 0xfffe`.
-/

namespace Franchise

variable {F : Type}

/-- Model of `MerkleTree` from `src/utils.rs`: a depth and the node
vector.  The Rust capacity `2 * 2^(depth-1) - 1` is a consequence of
`new`/`insert`/`calc` and shows up below as the proved final length. -/
structure MerkleTree (F : Type) where
  depth : Nat
  nodes : List F
deriving DecidableEq

/-- Model of `MerkleTree::new(depth)`: an empty node vector. -/
def MerkleTree.new (depth : Nat) : MerkleTree F :=
  ⟨depth, []⟩

/-- Model of `MerkleTree::insert`: `assert!(len < 2^(depth-1))` then push.
The failed assertion (a Rust panic, before any mutation) is `none`. -/
def MerkleTree.insert (t : MerkleTree F) (value : F) : Option (MerkleTree F × Nat) :=
  if t.nodes.length < 2 ^ (t.depth - 1) then
    some (⟨t.depth, t.nodes ++ [value]⟩, t.nodes.length)
  else
    none

/-- Model of the `while i < capacity - 1` loop body of `MerkleTree::calc`:
each iteration pushes `hash(nodes[i], nodes[i+1])` and advances `i` by 2.
Starting from `i = 0` with `capacity = 2*size - 1` the loop runs exactly
`size - 1` times, which is the structural recursion parameter here. -/
def calcSteps (hash : F → F → F) (z : F) : Nat → List F → Nat → List F
  | 0, nodes, _ => nodes
  | k + 1, nodes, i =>
      calcSteps hash z k (nodes ++ [hash (nodes.getD i z) (nodes.getD (i + 1) z)]) (i + 2)

/-- Model of `MerkleTree::calc` (named `calcTree` because `calc` is a Lean
keyword): pad the leaf level with zeroes up to `size = 2^(depth-1)`, then
run the bottom-up pass.  The iteration count `size - 1` is exactly the
number of times `while i < (2*size - 1) - 1` holds for `i = 0, 2, 4, …`,
which covers every state reachable by `new`/`insert` (length `≤ size`). -/
def MerkleTree.calcTree (hash : F → F → F) (z : F) (t : MerkleTree F) : MerkleTree F :=
  let size := 2 ^ (t.depth - 1)
  let padded :=
    if t.nodes.length < size then t.nodes ++ List.replicate (size - t.nodes.length) z
    else t.nodes
  ⟨t.depth, calcSteps hash z (size - 1) padded 0⟩

/-- Model of `MerkleTree::root`: `nodes[nodes.len() - 1]`, a panic (`none`)
on an empty node vector. -/
def MerkleTree.root (t : MerkleTree F) : Option F :=
  t.nodes.getLast?

/-- Model of `MerkleTree::get`. -/
def MerkleTree.get (z : F) (t : MerkleTree F) (index : Nat) : F :=
  t.nodes.getD index z

/-- Model of the `for n in 0..depth-1` loop of `MerkleTree::witness`,
structurally recursive on the remaining iteration count `k = depth-1-n`.
At remaining count `k+1` the per-level stride `2^(depth - n - 1)` added to
`base` equals `2^(k+1)`.  The source's 16-bit mask `index & 0xfffe` is
kept verbatim. -/
def witnessLoop (z : F) (nodes : List F) : Nat → Nat → Nat → List (F × Bool)
  | 0, _, _ => []
  | k + 1, index, base =>
      let left_right := 1 - index % 2
      (nodes.getD (base + (index &&& 0xfffe) + left_right) z, left_right == 1)
        :: witnessLoop z nodes k (index / 2) (base + 2 ^ (k + 1))

/-- Model of `MerkleTree::witness(index)`. -/
def MerkleTree.witness (z : F) (t : MerkleTree F) (index : Nat) : List (F × Bool) :=
  witnessLoop z t.nodes (t.depth - 1) index 0

/-- Node-vector offsets read by the successive iterations of
`MerkleTree::witness` (same recursion as `witnessLoop`, recording the
index of each `self.nodes[…]` access instead of its value). -/
def witnessOffsets : Nat → Nat → Nat → List Nat
  | 0, _, _ => []
  | k + 1, index, base =>
      (base + (index &&& 0xfffe) + (1 - index % 2))
        :: witnessOffsets k (index / 2) (base + 2 ^ (k + 1))

/-- The root re-derivation fold inside `MerkleTree::check_witness`:
`hash = if order { hash(hash, value) } else { hash(value, hash) }` over
the path. -/
def chainRoot (hash : F → F → F) (value : F) (siblings : List (F × Bool)) : F :=
  siblings.foldl (fun h s => if s.2 then hash h s.1 else hash s.1 h) value

/-- Model of `MerkleTree::check_witness`: re-derive and compare. -/
def MerkleTree.check_witness [DecidableEq F] (hash : F → F → F) (value : F)
    (siblings : List (F × Bool)) (root : F) : Bool :=
  decide (chainRoot hash value siblings = root)

/-- Modelled from the spec: the conditional-swap primitive
(`CondSwapChip::swap`, whose gadget source `src/circuit` is not present
under `src/`).  Per the spec, `select(bit, a, b)` returns `(a, b)` when
`bit` is false and `(b, a)` when true. -/
def select (bit : Bool) (a b : F) : F × F :=
  if bit then (b, a) else (a, b)

/-- Model of `FranchiseCircuit` from `src/franchise.rs`, in the honestly
assigned case (all `Option` fields are `Some`); the `[_; LVL]` arrays are
lists whose length-`LVL` invariant is established by the builder. -/
structure FranchiseCircuit (F : Type) where
  pri_index : List Bool
  pri_siblings : List F
  pri_secret_key : F
  pub_processid : F × F
  pub_votehash : F
deriving DecidableEq

/-- Value semantics of `FranchiseCircuit::merkle_tree`: for
`n in 0..LVL`, conditionally swap the running root with `pri_siblings[n]`
according to `pri_index[n]`, then hash the resulting (left, right) pair. -/
def FranchiseCircuit.merkle_tree (hash : F → F → F) (z : F) (LVL : Nat)
    (c : FranchiseCircuit F) (root0 : F) : F :=
  (List.range LVL).foldl
    (fun root n =>
      let leaf := c.pri_siblings.getD n z
      let lr := select (c.pri_index.getD n false) root leaf
      hash lr.1 lr.2)
    root0

/-- Value semantics of `FranchiseCircuit::synthesize`: the three values
constrained onto the instance column, in row order 0, 1, 2.  Row 0 is the
re-derived census root, row 1 the derived nullifier, row 2 the
pass-through vote hash. -/
def FranchiseCircuit.synthesize (hash : F → F → F) (z : F) (LVL : Nat)
    (c : FranchiseCircuit F) : List F :=
  let public_key := hash c.pri_secret_key c.pri_secret_key
  let process_id_hash := hash c.pub_processid.1 c.pub_processid.2
  let nullifier := hash c.pri_secret_key process_id_hash
  let root := c.merkle_tree hash z LVL public_key
  [root, nullifier, c.pub_votehash]

/-- Model of the array-filling loop of `generate_circuit_inputs`:
`for (n, (l, p)) in witness.iter().enumerate() { pri_siblings[n] = *l;
pri_index[n] = !p; }`.  A write at `n ≥ LVL` is an out-of-bounds panic on
a `[_; LVL]` array, hence `none`. -/
def setLoop (LVL : Nat) : List F → List Bool → Nat → List (F × Bool) → Option (List F × List Bool)
  | sib, idx, _, [] => some (sib, idx)
  | sib, idx, n, s :: rest =>
      if n < LVL then setLoop LVL (sib.set n s.1) (idx.set n (!s.2)) (n + 1) rest
      else none

/-- Model of `generate_circuit_inputs::<LVL>`: derive the nullifier
`hash(sk, hash(p0, p1))`, fill the private arrays (initialised to
`[Fp::zero(); LVL]` / `[false; LVL]`) from the path, and assemble the
circuit. -/
def generate_circuit_inputs (hash : F → F → F) (z : F) (LVL : Nat)
    (secret_key : F) (process_id : F × F) (vote_hash : F)
    (w : List (F × Bool)) : Option (FranchiseCircuit F × F) :=
  let process_id_hash := hash process_id.1 process_id.2
  let pub_nullifier := hash secret_key process_id_hash
  match setLoop LVL (List.replicate LVL z) (List.replicate LVL false) 0 w with
  | some si => some (⟨si.2, si.1, secret_key, process_id, vote_hash⟩, pub_nullifier)
  | none => none

/-- Model of `secret_to_public_key`. -/
def secret_to_public_key (hash : F → F → F) (secret_key : F) : F :=
  hash secret_key secret_key

/-- Model of the path-building loop of `generate_test_data`: starting
from the public key, combine a running value with `fromNat n` for
`n in 0..LVL`, on the left or right by parity of `n`, recording the
path. -/
def buildTestWitness (hash : F → F → F) (fromNat : Nat → F) (LVL : Nat)
    (pk : F) : F × List (F × Bool) :=
  (List.range LVL).foldl
    (fun st n =>
      let direction := n % 2 == 0
      let value := fromNat n
      let lr := if direction then (st.1, value) else (value, st.1)
      (hash lr.1 lr.2, st.2 ++ [(value, direction)]))
    (pk, [])

/-- Model of `generate_test_data::<LVL>` (`fromNat` models `Fp::from`):
fixed inputs `sk = 8`, `process_id = (6, 7)`, `vote_hash = 1`, a
synthetic path from `buildTestWitness`, the `assert!(check_witness(…))`
(`none` on failure), then `generate_circuit_inputs`, returning the
circuit and the public vector `[root, nullifier, vote_hash]`. -/
def generate_test_data [DecidableEq F] (hash : F → F → F) (z : F) (fromNat : Nat → F)
    (LVL : Nat) : Option (FranchiseCircuit F × List F) :=
  let secret_key := fromNat 8
  let process_id := (fromNat 6, fromNat 7)
  let vote_hash := fromNat 1
  let public_key := secret_to_public_key hash secret_key
  let rw := buildTestWitness hash fromNat LVL public_key
  if MerkleTree.check_witness hash public_key rw.2 rw.1 then
    match generate_circuit_inputs hash z LVL secret_key process_id vote_hash rw.2 with
    | some cn => some (cn.1, [rw.1, cn.2, vote_hash])
    | none => none
  else
    none

/-- Concrete instance used by counterexamples and witnesses below
(`F := Nat`); any function of two arguments will do. -/
def demoHash (a b : Nat) : Nat :=
  2 * a + 3 * b + 1

/-! ### Structure of the bottom-up pass (`MerkleTree::calc`) -/

theorem calcSteps_length (hash : F → F → F) (z : F) :
    ∀ (k : Nat) (nodes : List F) (i : Nat),
      (calcSteps hash z k nodes i).length = nodes.length + k := by
  intro k
  induction k with
  | zero => intro nodes i; simp [calcSteps]
  | succ k ih =>
      intro nodes i
      simp only [calcSteps]
      rw [ih]
      simp
      omega

theorem calcSteps_ext (hash : F → F → F) (z : F) :
    ∀ (k : Nat) (nodes : List F) (i : Nat),
      ∃ ext, calcSteps hash z k nodes i = nodes ++ ext := by
  intro k
  induction k with
  | zero => intro nodes i; exact ⟨[], by simp [calcSteps]⟩
  | succ k ih =>
      intro nodes i
      obtain ⟨ext, hext⟩ :=
        ih (nodes ++ [hash (nodes.getD i z) (nodes.getD (i + 1) z)]) (i + 2)
      refine ⟨[hash (nodes.getD i z) (nodes.getD (i + 1) z)] ++ ext, ?_⟩
      simp only [calcSteps]
      rw [hext, List.append_assoc]

theorem calcSteps_getD_lt (hash : F → F → F) (z : F) (k : Nat) (nodes : List F)
    (i p : Nat) (d : F) (hp : p < nodes.length) :
    (calcSteps hash z k nodes i).getD p d = nodes.getD p d := by
  obtain ⟨ext, hext⟩ := calcSteps_ext hash z k nodes i
  rw [hext, List.getD_append _ _ _ _ hp]

theorem calcSteps_hash_spec (hash : F → F → F) (z : F) :
    ∀ (k : Nat) (nodes : List F) (i : Nat),
      (∀ m, m < k → i + 2 * m + 1 < nodes.length + m) →
      ∀ m, m < k →
        (calcSteps hash z k nodes i).getD (nodes.length + m) z
          = hash ((calcSteps hash z k nodes i).getD (i + 2 * m) z)
              ((calcSteps hash z k nodes i).getD (i + 2 * m + 1) z) := by
  intro k
  induction k with
  | zero => intro nodes i _ m hm; omega
  | succ k ih =>
      intro nodes i hbound m hm
      simp only [calcSteps]
      have hlen' :
          (nodes ++ [hash (nodes.getD i z) (nodes.getD (i + 1) z)]).length
            = nodes.length + 1 := by simp
      match m with
      | 0 =>
          have hi1 : i + 1 < nodes.length := by
            have := hbound 0 (by omega)
            omega
          rw [calcSteps_getD_lt hash z k _ _ _ _ (by rw [hlen']; omega)]
          rw [calcSteps_getD_lt hash z k _ _ _ _ (by rw [hlen']; omega)]
          rw [calcSteps_getD_lt hash z k _ _ _ _ (by rw [hlen']; omega)]
          have h0 : (nodes ++ [hash (nodes.getD i z) (nodes.getD (i + 1) z)]).getD
              (nodes.length + 0) z = hash (nodes.getD i z) (nodes.getD (i + 1) z) := by
            rw [List.getD_append_right _ _ _ _ (by omega)]
            simp
          rw [h0]
          rw [List.getD_append _ _ _ _ (by omega : i + 2 * 0 < nodes.length)]
          rw [List.getD_append _ _ _ _ (by omega : i + 2 * 0 + 1 < nodes.length)]
          have e1 : i + 2 * 0 = i := by omega
          rw [e1]
      | Nat.succ m' =>
          have hb : ∀ m'', m'' < k →
              (i + 2) + 2 * m'' + 1
                < (nodes ++ [hash (nodes.getD i z) (nodes.getD (i + 1) z)]).length + m'' := by
            intro m'' hm''
            rw [hlen']
            have := hbound (m'' + 1) (by omega)
            omega
          have h2 := ih (nodes ++ [hash (nodes.getD i z) (nodes.getD (i + 1) z)]) (i + 2)
            hb m' (by omega)
          rw [hlen'] at h2
          have e1 : nodes.length + (m' + 1) = nodes.length + 1 + m' := by omega
          have e2 : i + 2 * (m' + 1) = i + 2 + 2 * m' := by omega
          rw [e1, e2]
          exact h2

theorem calcTree_nodes (hash : F → F → F) (z : F) (t : MerkleTree F)
    (hlen : t.nodes.length ≤ 2 ^ (t.depth - 1)) :
    (MerkleTree.calcTree hash z t).nodes
      = calcSteps hash z (2 ^ (t.depth - 1) - 1)
          (t.nodes ++ List.replicate (2 ^ (t.depth - 1) - t.nodes.length) z) 0 := by
  have hP :
      (if t.nodes.length < 2 ^ (t.depth - 1) then
          t.nodes ++ List.replicate (2 ^ (t.depth - 1) - t.nodes.length) z
        else t.nodes)
        = t.nodes ++ List.replicate (2 ^ (t.depth - 1) - t.nodes.length) z := by
    split
    · rfl
    · have hev : t.nodes.length = 2 ^ (t.depth - 1) := by omega
      rw [hev]
      simp
  simp only [MerkleTree.calcTree]
  rw [hP]

theorem calcTree_length (hash : F → F → F) (z : F) (t : MerkleTree F)
    (hlen : t.nodes.length ≤ 2 ^ (t.depth - 1)) :
    (MerkleTree.calcTree hash z t).nodes.length = 2 * 2 ^ (t.depth - 1) - 1 := by
  have hsize : 1 ≤ 2 ^ (t.depth - 1) := Nat.one_le_two_pow
  have hPlen :
      (t.nodes ++ List.replicate (2 ^ (t.depth - 1) - t.nodes.length) z).length
        = 2 ^ (t.depth - 1) := by
    simp
    omega
  rw [calcTree_nodes hash z t hlen, calcSteps_length, hPlen]
  omega

/-- Claim C3: `calc()` first pads the unfilled leaf slots with the
additive identity, then one bottom-up pass appends
`hash(node[2k], node[2k+1])` as node `size + k` for each `k`, ending
with the array full at `2 * 2^(d-1) - 1` nodes; `root()` afterwards
returns the last element of the array. -/
theorem calc_single_pass (hash : F → F → F) (z : F) (t : MerkleTree F)
    (_hd : 1 ≤ t.depth) (hlen : t.nodes.length ≤ 2 ^ (t.depth - 1)) :
    (MerkleTree.calcTree hash z t).nodes.length = 2 * 2 ^ (t.depth - 1) - 1 ∧
    (MerkleTree.calcTree hash z t).nodes.take (2 ^ (t.depth - 1))
      = t.nodes ++ List.replicate (2 ^ (t.depth - 1) - t.nodes.length) z ∧
    (∀ k, k < 2 ^ (t.depth - 1) - 1 →
      (MerkleTree.calcTree hash z t).nodes.getD (2 ^ (t.depth - 1) + k) z
        = hash ((MerkleTree.calcTree hash z t).nodes.getD (2 * k) z)
            ((MerkleTree.calcTree hash z t).nodes.getD (2 * k + 1) z)) ∧
    (MerkleTree.calcTree hash z t).root
      = some ((MerkleTree.calcTree hash z t).nodes.getD (2 * 2 ^ (t.depth - 1) - 2) z) := by
  have hsize : 1 ≤ 2 ^ (t.depth - 1) := Nat.one_le_two_pow
  have hnodes := calcTree_nodes hash z t hlen
  have hPlen :
      (t.nodes ++ List.replicate (2 ^ (t.depth - 1) - t.nodes.length) z).length
        = 2 ^ (t.depth - 1) := by
    simp
    omega
  have hRlen := calcTree_length hash z t hlen
  refine ⟨hRlen, ?_, ?_, ?_⟩
  · obtain ⟨ext, hext⟩ :=
      calcSteps_ext hash z (2 ^ (t.depth - 1) - 1)
        (t.nodes ++ List.replicate (2 ^ (t.depth - 1) - t.nodes.length) z) 0
    rw [hnodes, hext]
    have htl := List.take_left (t.nodes ++ List.replicate (2 ^ (t.depth - 1) - t.nodes.length) z) ext
    rw [hPlen] at htl
    exact htl
  · intro k hk
    rw [hnodes]
    have hspec := calcSteps_hash_spec hash z (2 ^ (t.depth - 1) - 1)
      (t.nodes ++ List.replicate (2 ^ (t.depth - 1) - t.nodes.length) z) 0
      (by intro m hm; rw [hPlen]; omega) k hk
    rw [hPlen] at hspec
    have e1 : 0 + 2 * k = 2 * k := by omega
    rw [e1] at hspec
    exact hspec
  · have hpos : 2 * 2 ^ (t.depth - 1) - 2 < (MerkleTree.calcTree hash z t).nodes.length := by
      omega
    rw [MerkleTree.root, List.getLast?_eq_getElem?, hRlen]
    have e1 : 2 * 2 ^ (t.depth - 1) - 1 - 1 = 2 * 2 ^ (t.depth - 1) - 2 := by omega
    rw [e1]
    rw [List.getD_eq_getElem?_getD, List.getElem?_eq_getElem hpos]
    rfl

/-- Witness for C3 at a concrete instance: depth 2 with one inserted
leaf, so one slot is zero-padded and one hash is computed. -/
theorem calc_single_pass_witness :
    (1 ≤ (⟨2, [4]⟩ : MerkleTree Nat).depth ∧
        (⟨2, [4]⟩ : MerkleTree Nat).nodes.length ≤ 2 ^ ((2 : Nat) - 1)) ∧
    ((MerkleTree.calcTree demoHash 0 ⟨2, [4]⟩).nodes.length = 2 * 2 ^ ((2 : Nat) - 1) - 1 ∧
      (MerkleTree.calcTree demoHash 0 ⟨2, [4]⟩).nodes.take (2 ^ ((2 : Nat) - 1))
        = [4] ++ List.replicate (2 ^ ((2 : Nat) - 1) - 1) 0 ∧
      ((MerkleTree.calcTree demoHash 0 ⟨2, [4]⟩).nodes.getD (2 ^ ((2 : Nat) - 1) + 0) 0
          = demoHash ((MerkleTree.calcTree demoHash 0 ⟨2, [4]⟩).nodes.getD (2 * 0) 0)
              ((MerkleTree.calcTree demoHash 0 ⟨2, [4]⟩).nodes.getD (2 * 0 + 1) 0)) ∧
      (MerkleTree.calcTree demoHash 0 ⟨2, [4]⟩).root
        = some ((MerkleTree.calcTree demoHash 0 ⟨2, [4]⟩).nodes.getD
            (2 * 2 ^ ((2 : Nat) - 1) - 2) 0)) :=
  ⟨⟨by decide, by decide⟩,
    (calc_single_pass demoHash 0 ⟨2, [4]⟩ (by decide) (by decide)).1,
    (calc_single_pass demoHash 0 ⟨2, [4]⟩ (by decide) (by decide)).2.1,
    (calc_single_pass demoHash 0 ⟨2, [4]⟩ (by decide) (by decide)).2.2.1 0 (by decide),
    (calc_single_pass demoHash 0 ⟨2, [4]⟩ (by decide) (by decide)).2.2.2⟩

/-! ### Structure of `MerkleTree::witness` -/

theorem witnessLoop_length (z : F) (nodes : List F) :
    ∀ (k index base : Nat), (witnessLoop z nodes k index base).length = k := by
  intro k
  induction k with
  | zero => intro index base; simp [witnessLoop]
  | succ k ih => intro index base; simp [witnessLoop, ih]

theorem witnessLoop_fst_offsets (z : F) (nodes : List F) :
    ∀ (k index base : Nat),
      (witnessLoop z nodes k index base).map Prod.fst
        = (witnessOffsets k index base).map (fun o => nodes.getD o z) := by
  intro k
  induction k with
  | zero => intro index base; simp [witnessLoop, witnessOffsets]
  | succ k ih =>
      intro index base
      simp only [witnessLoop, witnessOffsets, List.map_cons, ih]

theorem witnessLoop_snd (z : F) (nodes : List F) :
    ∀ (k index base : Nat),
      (witnessLoop z nodes k index base).map Prod.snd
        = (List.range k).map (fun m => decide (index / 2 ^ m % 2 = 0)) := by
  intro k
  induction k with
  | zero => intro index base; simp [witnessLoop]
  | succ k ih =>
      intro index base
      simp only [witnessLoop, List.map_cons, ih, List.range_succ_eq_map, List.map_map]
      refine congrArg₂ List.cons ?_ ?_
      · rcases Nat.mod_two_eq_zero_or_one index with h | h <;> simp [h]
      · apply List.map_congr_left
        intro m _
        simp only [Function.comp_apply, Nat.succ_eq_add_one]
        rw [Nat.div_div_eq_div_mul, pow_succ, mul_comm]

theorem witnessOffsets_bound :
    ∀ (k index base : Nat), index < 2 ^ k →
      ∀ o ∈ witnessOffsets k index base, o < base + 2 ^ (k + 1) - 1 := by
  intro k
  induction k with
  | zero => intro index base _ o ho; simp [witnessOffsets] at ho
  | succ k ih =>
      intro index base hidx o ho
      simp only [witnessOffsets, List.mem_cons] at ho
      have hp1 : (2 : Nat) ^ (k + 1) = 2 * 2 ^ k := by ring
      have hp2 : (2 : Nat) ^ (k + 2) = 2 * 2 ^ (k + 1) := by ring
      rcases ho with ho | ho
      · have hmask : index &&& 0xfffe ≤ index := Nat.and_le_left
        have hpow : (1 : Nat) ≤ 2 ^ k := Nat.one_le_two_pow
        omega
      · have h2 : index / 2 < 2 ^ k := by omega
        have := ih (index / 2) (base + 2 ^ (k + 1)) h2 o ho
        omega

/-- Claim C10: for depth `d ≥ 1` and a leaf index `i < 2^(d-1)`, after
`calc()` every node access of `witness(i)` — at offset
`base + (index & 0xfffe) + left_right` per level — is within the bounds
of the node array: the accessed offsets are exactly `witnessOffsets`
(second conjunct) and all of them are below the array length (first
conjunct). -/
theorem witness_accesses_in_bounds (hash : F → F → F) (z : F) (t : MerkleTree F)
    (i : Nat) (_hd : 1 ≤ t.depth) (hi : i < 2 ^ (t.depth - 1))
    (hlen : t.nodes.length ≤ 2 ^ (t.depth - 1)) :
    (∀ o ∈ witnessOffsets (t.depth - 1) i 0,
        o < (MerkleTree.calcTree hash z t).nodes.length) ∧
    ((MerkleTree.calcTree hash z t).witness z i).map Prod.fst
      = (witnessOffsets (t.depth - 1) i 0).map
          (fun o => (MerkleTree.calcTree hash z t).nodes.getD o z) := by
  have hRlen := calcTree_length hash z t hlen
  constructor
  · intro o ho
    have hb := witnessOffsets_bound (t.depth - 1) i 0 hi o ho
    have hp : (2 : Nat) ^ (t.depth - 1 + 1) = 2 * 2 ^ (t.depth - 1) := by ring
    omega
  · have hdepth : (MerkleTree.calcTree hash z t).depth = t.depth := by
      simp [MerkleTree.calcTree]
    rw [MerkleTree.witness, hdepth]
    exact witnessLoop_fst_offsets z _ (t.depth - 1) i 0

/-- Witness for C10: depth 2, two inserted leaves, index 1. -/
theorem witness_accesses_in_bounds_witness :
    (1 ≤ (⟨2, [7, 8]⟩ : MerkleTree Nat).depth ∧ 1 < 2 ^ ((2 : Nat) - 1) ∧
        (⟨2, [7, 8]⟩ : MerkleTree Nat).nodes.length ≤ 2 ^ ((2 : Nat) - 1) ∧
        0 ∈ witnessOffsets ((2 : Nat) - 1) 1 0) ∧
    ((0 < (MerkleTree.calcTree demoHash 0 ⟨2, [7, 8]⟩).nodes.length) ∧
      ((MerkleTree.calcTree demoHash 0 ⟨2, [7, 8]⟩).witness 0 1).map Prod.fst
        = (witnessOffsets ((2 : Nat) - 1) 1 0).map
            (fun o => (MerkleTree.calcTree demoHash 0 ⟨2, [7, 8]⟩).nodes.getD o 0)) :=
  ⟨⟨by decide, by decide, by decide, by decide⟩,
    (witness_accesses_in_bounds demoHash 0 ⟨2, [7, 8]⟩ 1 (by decide) (by decide)
        (by decide)).1 0 (by decide),
    (witness_accesses_in_bounds demoHash 0 ⟨2, [7, 8]⟩ 1 (by decide) (by decide)
        (by decide)).2⟩

/-! ### The witness flag convention (claim C5) -/

/-- Claim C5 is false on the code: it states that the flag emitted by
`witness` is true exactly when the sibling is the left node, i.e. when
the current node is on the right (level index odd, `i / 2^n % 2 = 1`).
On the depth-2 tree with nodes `[10, 20, 30]`, `witness(0)` emits the
step `(20, true)`: the flag is true while the current node 0 is on the
left (its sibling, node offset 1, is the right node). -/
theorem witness_flag_counterexample :
    ¬ (∀ (t : MerkleTree Nat) (i n : Nat), n < t.depth - 1 →
        ((t.witness 0 i).getD n (0, false)).2 = decide (i / 2 ^ n % 2 = 1)) := by
  intro h
  have h0 := h ⟨2, [10, 20, 30]⟩ 0 0 (by decide)
  revert h0
  decide

/-- Claim C5 amended: each step emitted by `witness(index)` carries a
boolean flag that is true exactly when the sibling at that level is the
*right* node, i.e. when the current node is on the left (level index
even). -/
theorem witness_flag_true_iff_current_left (z : F) (t : MerkleTree F) (i n : Nat)
    (hn : n < t.depth - 1) :
    ((t.witness z i).getD n (z, false)).2 = decide (i / 2 ^ n % 2 = 0) := by
  have hsnd := witnessLoop_snd z t.nodes (t.depth - 1) i 0
  have hlen := witnessLoop_length z t.nodes (t.depth - 1) i 0
  have hmap : ((t.witness z i).map Prod.snd).getD n false
      = ((t.witness z i).getD n (z, false)).2 := by
    rw [List.getD_eq_getElem?_getD, List.getD_eq_getElem?_getD, List.getElem?_map]
    have hn' : n < (t.witness z i).length := by
      rw [MerkleTree.witness, hlen]; exact hn
    rw [List.getElem?_eq_getElem hn']
    rfl
  rw [← hmap, MerkleTree.witness, hsnd]
  rw [List.getD_eq_getElem?_getD, List.getElem?_map, List.getElem?_range hn]
  rfl

/-- Witness for the amended C5: depth 2, index 1 (current node on the
right, sibling on the left, flag false). -/
theorem witness_flag_true_iff_current_left_witness :
    ((0 : Nat) < (⟨2, [10, 20, 30]⟩ : MerkleTree Nat).depth - 1) ∧
    (((⟨2, [10, 20, 30]⟩ : MerkleTree Nat).witness 0 1).getD 0 (0, false)).2
      = decide ((1 : Nat) / 2 ^ 0 % 2 = 0) :=
  ⟨by decide, witness_flag_true_iff_current_left 0 ⟨2, [10, 20, 30]⟩ 1 0 (by decide)⟩

/-! ### The 16-bit index mask in `MerkleTree::witness` (claim C1) -/

/-- Claim C1 concerns the round-trip property for every depth `d ≥ 1`.
The code breaks it for `d ≥ 18`: `witness` masks the per-level index
with `0xfffe`, discarding all bits above bit 15.  This theorem evaluates
the first step of `witness` at the failing input — depth 18, leaf index
`65536 = 2^16`: the level-0 sibling is read from node offset
`0 + (65536 &&& 0xfffe) + 1 = 1` instead of offset `65537`, for every
possible node array, so `check_witness` re-derives the root from the
wrong sibling and the round trip fails (absent a hash collision). -/
theorem witness_mask_divergence (z : F) (A : List F) :
    ((⟨18, A⟩ : MerkleTree F).witness z 65536).head? = some (A.getD 1 z, true) ∧
    (0 + (65536 &&& 0xfffe) + (1 - 65536 % 2) = 1) ∧
    (65536 / 2 * 2 + (1 - 65536 % 2) = 65537) := by
  refine ⟨?_, by decide, by decide⟩
  show (witnessLoop z A (18 - 1) 65536 0).head? = some (A.getD 1 z, true)
  have e : (18 : Nat) - 1 = 16 + 1 := by omega
  rw [e]
  simp only [witnessLoop]
  have e2 : 0 + (65536 &&& 0xfffe) + (1 - 65536 % 2) = 1 := by decide
  have e3 : ((1 : Nat) - 65536 % 2 == 1) = true := by decide
  rw [List.head?_cons]
  rw [e2, e3]

/-! ### Insertion capacity (claim C7) -/

/-- Claim C7: on a tree already holding `2^(d-1)` leaves, `insert` fails
(the `assert!` fires before any mutation, so the node array is left
unmodified); on a tree holding fewer leaves, `insert` appends the value
as the next leaf and returns its index. -/
theorem insert_capacity (t : MerkleTree F) (v : F) :
    (t.nodes.length < 2 ^ (t.depth - 1) →
        t.insert v = some (⟨t.depth, t.nodes ++ [v]⟩, t.nodes.length)) ∧
    (2 ^ (t.depth - 1) ≤ t.nodes.length → t.insert v = none) := by
  constructor
  · intro h
    simp [MerkleTree.insert, h]
  · intro h
    simp [MerkleTree.insert]
    omega

/-- Witness for C7: a depth-2 tree below capacity accepts an insert; at
capacity the insert aborts. -/
theorem insert_capacity_witness :
    ((⟨2, [5]⟩ : MerkleTree Nat).nodes.length < 2 ^ ((2 : Nat) - 1) ∧
        (⟨2, [5]⟩ : MerkleTree Nat).insert 6 = some (⟨2, [5, 6]⟩, 1)) ∧
    (2 ^ ((2 : Nat) - 1) ≤ (⟨2, [5, 6]⟩ : MerkleTree Nat).nodes.length ∧
        (⟨2, [5, 6]⟩ : MerkleTree Nat).insert 7 = none) :=
  ⟨⟨by decide, (insert_capacity (⟨2, [5]⟩ : MerkleTree Nat) 6).1 (by decide)⟩,
    ⟨by decide, (insert_capacity (⟨2, [5, 6]⟩ : MerkleTree Nat) 7).2 (by decide)⟩⟩

/-! ### Reads before `calc()` (claim C8) -/

/-- Claim C8 is false on the code: it states that calling `root()` (or
`witness()`) on a tree on which `calc()` has not run is a fatal error
rather than a silent return.  But `root()` simply reads the last node:
on the pre-`calc` tree obtained by `new(1)` followed by one `insert(5)`,
`root()` silently returns `5`. -/
theorem root_before_calc_counterexample :
    ¬ (∀ (d v : Nat) (p : MerkleTree Nat × Nat),
        (MerkleTree.new d : MerkleTree Nat).insert v = some p → p.1.root = none) := by
  intro h
  have h0 := h 1 5 (⟨1, [5]⟩, 0) (by decide)
  revert h0
  decide

/-- Claim C8 amended: neither `root()` nor `witness()` performs an
initialization check.  `root()` is fatal exactly on an empty node array
(in particular on a freshly created tree); after any successful insert
it silently returns the just-inserted value even though `calc()` has not
run; and on a depth-1 tree `witness()` silently returns the empty path. -/
theorem root_witness_no_init_check (z : F) (d : Nat) (v : F)
    (t t' : MerkleTree F) (idx i : Nat) :
    (MerkleTree.root (MerkleTree.new d : MerkleTree F) = none) ∧
    (t.insert v = some (t', idx) → t'.root = some v) ∧
    (t.depth = 1 → t.witness z i = []) := by
  refine ⟨rfl, ?_, ?_⟩
  · intro h
    rw [MerkleTree.insert] at h
    split at h
    · cases h
      exact List.getLast?_concat _
    · cases h
  · intro h
    rw [MerkleTree.witness, h]
    rfl

/-- Witness for the amended C8. -/
theorem root_witness_no_init_check_witness :
    (MerkleTree.root (MerkleTree.new 3 : MerkleTree Nat) = none) ∧
    ((⟨2, [7]⟩ : MerkleTree Nat).insert 9 = some (⟨2, [7, 9]⟩, 1) ∧
      (⟨2, [7, 9]⟩ : MerkleTree Nat).root = some 9) ∧
    ((⟨1, [4]⟩ : MerkleTree Nat).depth = 1 ∧
      (⟨1, [4]⟩ : MerkleTree Nat).witness 0 0 = []) :=
  ⟨(root_witness_no_init_check 0 3 9 (⟨2, [7]⟩ : MerkleTree Nat) ⟨2, [7, 9]⟩ 1 0).1,
    ⟨by decide,
      (root_witness_no_init_check 0 3 9 (⟨2, [7]⟩ : MerkleTree Nat) ⟨2, [7, 9]⟩ 1 0).2.1
        (by decide)⟩,
    ⟨by decide,
      (root_witness_no_init_check 0 3 9 (⟨1, [4]⟩ : MerkleTree Nat) ⟨2, [7, 9]⟩ 1 0).2.2
        (by decide)⟩⟩

/-! ### The witness builder `generate_circuit_inputs` -/

theorem setLoop_copy (z : F) :
    ∀ (w : List (F × Bool)) (LVL n : Nat) (ds : List F) (di : List Bool),
      ds.length = n → di.length = n → n + w.length ≤ LVL →
      setLoop LVL (ds ++ List.replicate (LVL - n) z)
          (di ++ List.replicate (LVL - n) false) n w
        = some (ds ++ w.map Prod.fst ++ List.replicate (LVL - n - w.length) z,
            di ++ w.map (fun s => !s.2) ++ List.replicate (LVL - n - w.length) false) := by
  intro w
  induction w with
  | nil =>
      intro LVL n ds di hds hdi hle
      simp [setLoop]
  | cons s rest ih =>
      intro LVL n ds di hds hdi hle
      have hle' : (n + 1) + rest.length ≤ LVL := by
        simp only [List.length_cons] at hle
        omega
      have hn : n < LVL := by omega
      have hs1 : (ds ++ List.replicate (LVL - n) z).set n s.1
          = (ds ++ [s.1]) ++ List.replicate (LVL - (n + 1)) z := by
        have h1 : LVL - n = LVL - (n + 1) + 1 := by omega
        rw [List.set_append, hds, if_neg (Nat.lt_irrefl n), Nat.sub_self, h1,
          List.replicate_succ, List.set_cons_zero, List.append_cons]
      have hs2 : (di ++ List.replicate (LVL - n) false).set n (!s.2)
          = (di ++ [!s.2]) ++ List.replicate (LVL - (n + 1)) false := by
        have h1 : LVL - n = LVL - (n + 1) + 1 := by omega
        rw [List.set_append, hdi, if_neg (Nat.lt_irrefl n), Nat.sub_self, h1,
          List.replicate_succ, List.set_cons_zero, List.append_cons]
      simp only [setLoop]
      rw [if_pos hn, hs1, hs2]
      have hrec := ih LVL (n + 1) (ds ++ [s.1]) (di ++ [!s.2])
        (by simp [hds]) (by simp [hdi]) hle'
      rw [hrec]
      simp only [List.map_cons, List.length_cons]
      have e : LVL - n - (rest.length + 1) = LVL - (n + 1) - rest.length := by omega
      rw [e]
      simp

theorem setLoop_overflow :
    ∀ (w : List (F × Bool)) (LVL n : Nat) (sib : List F) (idx : List Bool),
      n ≤ LVL → LVL < n + w.length → setLoop LVL sib idx n w = none := by
  intro w
  induction w with
  | nil =>
      intro LVL n sib idx h1 h2
      simp only [List.length_nil] at h2
      omega
  | cons s rest ih =>
      intro LVL n sib idx h1 h2
      simp only [List.length_cons] at h2
      by_cases hn : n < LVL
      · simp only [setLoop]
        rw [if_pos hn]
        exact ih LVL (n + 1) _ _ (by omega) (by omega)
      · simp only [setLoop]
        rw [if_neg hn]

theorem generate_circuit_inputs_eq (hash : F → F → F) (z : F) (LVL : Nat)
    (sk : F) (pid : F × F) (vh : F) (w : List (F × Bool)) (h : w.length ≤ LVL) :
    generate_circuit_inputs hash z LVL sk pid vh w
      = some (⟨w.map (fun s => !s.2) ++ List.replicate (LVL - w.length) false,
          w.map Prod.fst ++ List.replicate (LVL - w.length) z,
          sk, pid, vh⟩, hash sk (hash pid.1 pid.2)) := by
  have hcopy := setLoop_copy z w LVL 0 [] [] rfl rfl (by omega)
  simp only [Nat.sub_zero, List.nil_append] at hcopy
  simp only [generate_circuit_inputs]
  rw [hcopy]

theorem generate_circuit_inputs_overflow (hash : F → F → F) (z : F) (LVL : Nat)
    (sk : F) (pid : F × F) (vh : F) (w : List (F × Bool)) (h : LVL < w.length) :
    generate_circuit_inputs hash z LVL sk pid vh w = none := by
  have hover := setLoop_overflow w LVL 0 (List.replicate LVL z)
    (List.replicate LVL false) (by omega) (by omega)
  simp only [generate_circuit_inputs]
  rw [hover]

theorem generate_circuit_inputs_exact (hash : F → F → F) (z : F) (LVL : Nat) (sk : F)
    (pid : F × F) (vh : F) (w : List (F × Bool)) (h : w.length = LVL) :
    generate_circuit_inputs hash z LVL sk pid vh w
      = some (⟨w.map (fun s => !s.2), w.map Prod.fst, sk, pid, vh⟩,
          hash sk (hash pid.1 pid.2)) := by
  have h2 := generate_circuit_inputs_eq hash z LVL sk pid vh w (by omega)
  rw [h, Nat.sub_self] at h2
  simpa using h2

/-- Claim C4: for a path of the relation's length `LVL`, the witness
builder returns the public nullifier `hash(sk, hash(p0, p1))` and the
private assignment with `pri_siblings[n] = sibling n` and
`pri_index[n] = !flag n` (the direction-bit inversion), together with
the pass-through fields. -/
theorem builder_assignment (hash : F → F → F) (z : F) (LVL : Nat) (sk : F)
    (pid : F × F) (vh : F) (w : List (F × Bool)) (h : w.length = LVL) :
    generate_circuit_inputs hash z LVL sk pid vh w
      = some (⟨w.map (fun s => !s.2), w.map Prod.fst, sk, pid, vh⟩,
          hash sk (hash pid.1 pid.2)) :=
  generate_circuit_inputs_exact hash z LVL sk pid vh w h

/-- Witness for C4: a two-step path at `LVL = 2`. -/
theorem builder_assignment_witness :
    ([((3 : Nat), true), (4, false)].length = 2) ∧
    generate_circuit_inputs demoHash 0 2 8 (6, 7) 1 [(3, true), (4, false)]
      = some (⟨[false, true], [3, 4], 8, (6, 7), 1⟩, demoHash 8 (demoHash 6 7)) := by
  refine ⟨by decide, ?_⟩
  have h := builder_assignment demoHash 0 2 8 (6, 7) 1 [(3, true), (4, false)] (by decide)
  simpa using h

/-- Claim C6 is false on the code: a path shorter than `LVL` is not
rejected — it is silently padded.  At `LVL = 1` the empty path (length
`0 ≠ 1`) yields a circuit with `pri_siblings = [0]`,
`pri_index = [false]` instead of an error. -/
theorem builder_length_counterexample :
    ¬ (∀ (LVL : Nat) (sk : Nat) (pid : Nat × Nat) (vh : Nat) (w : List (Nat × Bool)),
        w.length ≠ LVL → generate_circuit_inputs demoHash 0 LVL sk pid vh w = none) := by
  intro h
  have h0 := h 1 5 (6, 7) 9 [] (by decide)
  revert h0
  decide

/-- Claim C6 amended: a path longer than `LVL` makes the builder abort
fatally (out-of-bounds array write, modelled `none`) — it is not
silently truncated; but a path shorter than `LVL` is NOT rejected: the
remaining slots are silently left at their `(0, false)` initialisation. -/
theorem builder_length_handling (hash : F → F → F) (z : F) (LVL : Nat)
    (sk : F) (pid : F × F) (vh : F) (w : List (F × Bool)) :
    (LVL < w.length → generate_circuit_inputs hash z LVL sk pid vh w = none) ∧
    (w.length ≤ LVL → generate_circuit_inputs hash z LVL sk pid vh w
        = some (⟨w.map (fun s => !s.2) ++ List.replicate (LVL - w.length) false,
            w.map Prod.fst ++ List.replicate (LVL - w.length) z, sk, pid, vh⟩,
            hash sk (hash pid.1 pid.2))) :=
  ⟨fun h => generate_circuit_inputs_overflow hash z LVL sk pid vh w h,
    fun h => generate_circuit_inputs_eq hash z LVL sk pid vh w h⟩

/-- Witness for the amended C6: at `LVL = 1`, a two-step path aborts and
the empty path is padded. -/
theorem builder_length_handling_witness :
    ((1 : Nat) < [((3 : Nat), true), (4, true)].length ∧
        generate_circuit_inputs demoHash 0 1 5 (6, 7) 9 [(3, true), (4, true)] = none) ∧
    (([] : List (Nat × Bool)).length ≤ 1 ∧
        generate_circuit_inputs demoHash 0 1 5 (6, 7) 9 []
          = some (⟨[false], [0], 5, (6, 7), 9⟩, demoHash 5 (demoHash 6 7))) := by
  constructor
  · exact ⟨by decide,
      (builder_length_handling demoHash 0 1 5 (6, 7) 9 [(3, true), (4, true)]).1 (by decide)⟩
  · refine ⟨by decide, ?_⟩
    have h := (builder_length_handling demoHash 0 1 5 (6, 7) 9 []).2 (by decide)
    simpa using h

/-! ### The circuit root re-derivation loop (claim C2) -/

theorem rangeFold_eq_chainRoot (hash : F → F → F) (z : F) :
    ∀ (w : List (F × Bool)) (root0 : F),
      (List.range w.length).foldl
          (fun root n =>
            hash
              (select ((w.map fun s => !s.2).getD n false) root
                ((w.map Prod.fst).getD n z)).1
              (select ((w.map fun s => !s.2).getD n false) root
                ((w.map Prod.fst).getD n z)).2) root0
        = chainRoot hash root0 w := by
  intro w
  induction w with
  | nil => intro root0; simp [chainRoot]
  | cons s rest ih =>
      intro root0
      rw [List.length_cons, List.range_succ_eq_map, List.foldl_cons, List.foldl_map]
      simp only [List.map_cons, List.getD_cons_zero, List.getD_cons_succ,
        Nat.succ_eq_add_one]
      rw [ih]
      simp only [chainRoot, List.foldl_cons]
      cases h : s.2 <;> simp [select, h]

theorem merkle_tree_eq_chainRoot (hash : F → F → F) (z : F) (sk : F) (pid : F × F)
    (vh : F) (w : List (F × Bool)) (root0 : F) :
    FranchiseCircuit.merkle_tree hash z w.length
        ⟨w.map (fun s => !s.2), w.map Prod.fst, sk, pid, vh⟩ root0
      = chainRoot hash root0 w := by
  have h := rangeFold_eq_chainRoot hash z w root0
  simpa [FranchiseCircuit.merkle_tree] using h

/-- Claim C2: for every starting value and every path of the relation's
length `LVL`, the circuit's root re-derivation loop (conditional swap by
the builder-inverted direction bit, then hash), run on the builder's
private assignment, computes exactly the same final root as the
reference `check_witness` re-derivation on the original
`(sibling, isLeftSibling)` path — so `check_witness` agrees with
comparing the circuit root against any candidate root `r`. -/
theorem circuitRoot_matches_check_witness [DecidableEq F] (hash : F → F → F)
    (z : F) (LVL : Nat) (sk : F) (pid : F × F) (vh start r : F)
    (w : List (F × Bool)) (c : FranchiseCircuit F) (nul : F)
    (hw : w.length = LVL)
    (hgen : generate_circuit_inputs hash z LVL sk pid vh w = some (c, nul)) :
    c.merkle_tree hash z LVL start = chainRoot hash start w ∧
    MerkleTree.check_witness hash start w r
      = decide (c.merkle_tree hash z LVL start = r) := by
  have heq := generate_circuit_inputs_exact hash z LVL sk pid vh w hw
  rw [heq] at hgen
  injection hgen with hpair
  injection hpair with hc hnul
  have hroot : c.merkle_tree hash z LVL start = chainRoot hash start w := by
    rw [← hc, ← hw]
    exact merkle_tree_eq_chainRoot hash z sk pid vh w start
  refine ⟨hroot, ?_⟩
  rw [MerkleTree.check_witness, hroot]

/-- Witness for C2: a two-step path at `LVL = 2`, checked against the
candidate root `99`. -/
theorem circuitRoot_matches_check_witness_witness :
    (([((3 : Nat), true), (4, false)] : List (Nat × Bool)).length = 2 ∧
      generate_circuit_inputs demoHash 0 2 8 (6, 7) 1 [(3, true), (4, false)]
        = some (⟨[false, true], [3, 4], 8, (6, 7), 1⟩, demoHash 8 (demoHash 6 7))) ∧
    (FranchiseCircuit.merkle_tree demoHash 0 2 ⟨[false, true], [3, 4], 8, (6, 7), 1⟩ 5
        = chainRoot demoHash 5 [(3, true), (4, false)] ∧
      MerkleTree.check_witness demoHash 5 [(3, true), (4, false)] 99
        = decide (FranchiseCircuit.merkle_tree demoHash 0 2
            ⟨[false, true], [3, 4], 8, (6, 7), 1⟩ 5 = 99)) :=
  ⟨⟨by decide, by decide⟩,
    circuitRoot_matches_check_witness demoHash 0 2 8 (6, 7) 1 5 99
      [(3, true), (4, false)] ⟨[false, true], [3, 4], 8, (6, 7), 1⟩
      (demoHash 8 (demoHash 6 7)) (by decide) (by decide)⟩

/-! ### The public vector `[root, nullifier, vote_hash]` (claim C9) -/

theorem chainRoot_append (hash : F → F → F) (v : F) (w : List (F × Bool)) (s : F × Bool) :
    chainRoot hash v (w ++ [s])
      = if s.2 then hash (chainRoot hash v w) s.1 else hash s.1 (chainRoot hash v w) := by
  simp [chainRoot, List.foldl_append]

theorem buildTestWitness_succ (hash : F → F → F) (fromNat : Nat → F) (LVL : Nat) (pk : F) :
    buildTestWitness hash fromNat (LVL + 1) pk
      = ((if LVL % 2 == 0
            then hash (buildTestWitness hash fromNat LVL pk).1 (fromNat LVL)
            else hash (fromNat LVL) (buildTestWitness hash fromNat LVL pk).1),
          (buildTestWitness hash fromNat LVL pk).2 ++ [(fromNat LVL, LVL % 2 == 0)]) := by
  simp only [buildTestWitness, List.range_succ, List.foldl_append, List.foldl_cons,
    List.foldl_nil]
  cases h : (LVL % 2 == 0) <;> simp [h]

theorem buildTestWitness_spec (hash : F → F → F) (fromNat : Nat → F) :
    ∀ (LVL : Nat) (pk : F),
      (buildTestWitness hash fromNat LVL pk).2.length = LVL ∧
      (buildTestWitness hash fromNat LVL pk).1
        = chainRoot hash pk (buildTestWitness hash fromNat LVL pk).2 := by
  intro LVL
  induction LVL with
  | zero => intro pk; simp [buildTestWitness, chainRoot]
  | succ L ih =>
      intro pk
      obtain ⟨ihlen, ihroot⟩ := ih pk
      rw [buildTestWitness_succ]
      constructor
      · simp [ihlen]
      · rw [chainRoot_append, ← ihroot]

/-- Claim C9: whenever the test-vector builder succeeds, the public
vector it emits has exactly 3 entries and equals the circuit's instance
column: the re-derived census root at position 0, the derived nullifier
at position 1, and the pass-through vote hash at position 2. -/
theorem public_vector_order [DecidableEq F] (hash : F → F → F) (z : F)
    (fromNat : Nat → F) (LVL : Nat) (c : FranchiseCircuit F) (pub : List F)
    (hgen : generate_test_data hash z fromNat LVL = some (c, pub)) :
    pub = FranchiseCircuit.synthesize hash z LVL c ∧ pub.length = 3 := by
  simp only [generate_test_data] at hgen
  set bw := buildTestWitness hash fromNat LVL (secret_to_public_key hash (fromNat 8))
    with hbw
  obtain ⟨hwlen, hroot⟩ :=
    buildTestWitness_spec hash fromNat LVL (secret_to_public_key hash (fromNat 8))
  rw [← hbw] at hwlen hroot
  have hcheck :
      MerkleTree.check_witness hash (secret_to_public_key hash (fromNat 8)) bw.2 bw.1
        = true := by
    rw [MerkleTree.check_witness, hroot]
    simp
  have hgci := generate_circuit_inputs_exact hash z LVL (fromNat 8) (fromNat 6, fromNat 7)
    (fromNat 1) bw.2 hwlen
  rw [hcheck] at hgen
  simp only [if_pos] at hgen
  rw [hgci] at hgen
  injection hgen with hpair
  injection hpair with hc hpub
  have hm : FranchiseCircuit.merkle_tree hash z LVL
      ⟨bw.2.map (fun s => !s.2), bw.2.map Prod.fst,
        fromNat 8, (fromNat 6, fromNat 7), fromNat 1⟩
      (hash (fromNat 8) (fromNat 8))
      = bw.1 := by
    rw [← hwlen, merkle_tree_eq_chainRoot]
    rw [secret_to_public_key] at hroot
    exact hroot.symm
  constructor
  · rw [← hpub, ← hc]
    simp only [FranchiseCircuit.synthesize]
    rw [hm]
  · rw [← hpub]
    rfl

/-- Witness for C9 at `LVL = 1` over `F := Nat` with `fromNat = id`:
the builder emits the circuit and the public vector `[83, 119, 1]`,
which is the circuit's instance column in order root, nullifier, vote
hash. -/
theorem public_vector_order_witness :
    generate_test_data demoHash 0 (fun n => n) 1
        = some (⟨[false], [0], 8, (6, 7), 1⟩, [83, 119, 1]) ∧
    ([83, 119, 1] = FranchiseCircuit.synthesize demoHash 0 1 ⟨[false], [0], 8, (6, 7), 1⟩ ∧
      ([83, 119, 1] : List Nat).length = 3) :=
  ⟨by decide,
    public_vector_order demoHash 0 (fun n => n) 1 ⟨[false], [0], 8, (6, 7), 1⟩
      [83, 119, 1] (by decide)⟩

end Franchise
